import Mathlib

/-!
Verification of the layout and interaction engine of the Family-Tree
application (`FamilyTreeApp.py`).

The Python source is shallowly embedded as follows:

* `RelRow` mirrors a row of the `relationships` table
  (`relationship_id, member_id, relative_id, relationship_type`);
  members are identified by their `member_id : Nat`.
* Python dictionaries (`generations`, `node_positions`, `gen_members`) are
  association lists in insertion order: updating an existing key keeps its
  position, a new key is appended at the end — exactly the iteration-order
  semantics of Python dicts that `draw_tree` relies on.
* The recursion of `assign_generation_recursive` is embedded with an explicit
  fuel argument bounding the recursion depth (`none` = fuel exhausted).  The
  fuel chosen in `assignGenerations` is proved sufficient (the exhaustion
  branch is unreachable), which is the termination argument for the source
  recursion.
* Python float arithmetic on coordinates and scales is modelled by exact
  rational arithmetic (`ℚ`).
* `lowerStr` models the Python `str.lower` method (ASCII case folding,
  which agrees with Python on the ASCII labels relevant here).
-/

/-- Model of the Python `str.lower` method used in the label comparisons. -/
def lowerStr (s : String) : String := ⟨s.data.map Char.toLower⟩

/-- The label test `relationship_type.lower() in [parent, father, mother]`
(lines 348 and 379 of `FamilyTreeApp.py`). -/
def isParentType (t : String) : Bool :=
  lowerStr t == "parent" || lowerStr t == "father" || lowerStr t == "mother"

/-- A row of the `relationships` table:
`(relationship_id, member_id, relative_id, relationship_type)`. -/
structure RelRow where
  relId : Nat
  memberId : Nat
  relativeId : Nat
  relType : String
deriving DecidableEq

/-- The sublist of relationship rows whose type label is a parent label. -/
def parentRels (rels : List RelRow) : List RelRow :=
  rels.filter (fun r => isParentType r.relType)

/-- The `parents` set of `assign_generations` (lines 345-349): all
`relative_id`s of parent-labelled rows, in row order (membership is what the
source uses). -/
def parentsOf (rels : List RelRow) : List Nat :=
  (parentRels rels).map (·.relativeId)

/-- `root_members` (line 352): members that never occur as the target of a
parent edge, in member order. -/
def rootsOf (members : List Nat) (rels : List RelRow) : List Nat :=
  members.filter (fun m => !((parentsOf rels).contains m))

/-- The children scan of `assign_generation_recursive` (lines 376-380):
targets of parent-labelled rows whose source is `m`, in row order. -/
def childrenOf (rels : List RelRow) (m : Nat) : List Nat :=
  (rels.filter (fun r => r.memberId == m && isParentType r.relType)).map (·.relativeId)

/-- The `generations` dictionary: an association list in insertion order. -/
abbrev Gens := List (Nat × Nat)

/-- Dictionary lookup `generations[member_id]` / `member_id in generations`. -/
def lookupGen : Gens → Nat → Option Nat
  | [], _ => none
  | (k, v) :: l, m => if k = m then some v else lookupGen l m

/-- Dictionary assignment `generations[member_id] = generation`: an existing
key keeps its position, a new key is appended at the end. -/
def insertGen : Gens → Nat → Nat → Gens
  | [], m, g => [(m, g)]
  | (k, v) :: l, m, g => if k = m then (m, g) :: l else (k, v) :: insertGen l m g

/-- Sequentially runs a state-threading step over a list, propagating
fuel exhaustion; used for the child loop of `assign_generation_recursive`
(lines 383-384) and the root loop of `assign_generations` (lines 353-354). -/
def bindList (f : Nat → Gens → Option Gens) : List Nat → Gens → Option Gens
  | [], gens => some gens
  | c :: cs, gens =>
    match f c gens with
    | none => none
    | some gens' => bindList f cs gens'

/-- `assign_generation_recursive` (lines 358-384), with a fuel argument
bounding the recursion depth.  If the member is already recorded with a value
not larger than `g`, return with the map unchanged; otherwise record `g` for
the member and recurse into its children with `g + 1`. -/
def assignGenRec (rels : List RelRow) : Nat → Nat → Nat → Gens → Option Gens
  | 0, _, _, _ => none
  | fuel + 1, m, g, gens =>
    match lookupGen gens m with
    | some v =>
      if g < v then
        bindList (fun c gs => assignGenRec rels fuel c (g + 1) gs)
          (childrenOf rels m) (insertGen gens m g)
      else
        some gens
    | none =>
      bindList (fun c gs => assignGenRec rels fuel c (g + 1) gs)
        (childrenOf rels m) (insertGen gens m g)

/-- The child-loop entry point: children of one member processed at
generation `g` after the record of the member itself was written. -/
def assignGenList (rels : List RelRow) (fuel : Nat) (cs : List Nat) (g : Nat)
    (gens : Gens) : Option Gens :=
  bindList (fun c gs => assignGenRec rels fuel c g gs) cs gens

/-- The recursion-depth budget used by `assignGenerations`: one more than
twice the number of parent-labelled rows, which bounds the number of distinct
member ids occurring on parent edges.  Proved sufficient below. -/
def startFuel (rels : List RelRow) : Nat := 2 * (parentRels rels).length + 1

/-- `assign_generations` (lines 336-356): traverse from every root with
generation `0`, threading the `generations` dictionary. -/
def assignGenerations (members : List Nat) (rels : List RelRow) : Option Gens :=
  bindList (fun m gs => assignGenRec rels (startFuel rels) m 0 gs)
    (rootsOf members rels) []

/-- One `setdefault`-and-append step of the `gen_members` grouping
(lines 306-308): append the member to the row of its generation, creating the
row at the end when the generation is new. -/
def addToGroup : List (Nat × List Nat) → Nat → Nat → List (Nat × List Nat)
  | [], g, m => [(g, [m])]
  | (g', ms) :: rest, g, m =>
    if g' = g then (g', ms ++ [m]) :: rest else (g', ms) :: addToGroup rest g m

/-- `gen_members` (lines 306-308): members grouped by generation, rows in
first-seen order, members within a row in `generations` iteration order. -/
def genMembers (gens : Gens) : List (Nat × List Nat) :=
  gens.foldl (fun acc p => addToGroup acc p.2 p.1) []

/-- The positions of one generation row (lines 311-318):
`start_x = 1000 - ((num - 1) / 2) * 150`, `x = start_x + i * 150`,
`y = 100 + gen * 200`. -/
def rowPositions (g : Nat) (ms : List Nat) : List (Nat × ℚ × ℚ) :=
  ms.enum.map (fun p =>
    (p.2, 1000 - ((ms.length : ℚ) - 1) / 2 * 150 + (p.1 : ℚ) * 150,
      100 + (g : ℚ) * 200))

/-- All rows of the layout, concatenated in row order. -/
def positionsOfRows : List (Nat × List Nat) → List (Nat × ℚ × ℚ)
  | [] => []
  | (g, ms) :: rest => rowPositions g ms ++ positionsOfRows rest

/-- The `node_positions` dictionary built by `draw_tree` (lines 311-318). -/
def nodePositions (gens : Gens) : List (Nat × ℚ × ℚ) :=
  positionsOfRows (genMembers gens)

/-- Lookup in the `node_positions` dictionary
(`member_id in self.node_positions`, lines 323-325). -/
def lookupPos : List (Nat × ℚ × ℚ) → Nat → Option (ℚ × ℚ)
  | [], _ => none
  | (k, q) :: l, m => if k = m then some q else lookupPos l m

/-- The edge pass of `draw_tree` (lines 320-326): one line primitive
`((x1, y1), (x2, y2))` per relationship row (of any type) whose both
endpoints are in `node_positions`; other rows are skipped. -/
def drawEdges (pos : List (Nat × ℚ × ℚ)) : List RelRow → List ((ℚ × ℚ) × (ℚ × ℚ))
  | [] => []
  | r :: rest =>
    match lookupPos pos r.memberId, lookupPos pos r.relativeId with
    | some p, some q => (p, q) :: drawEdges pos rest
    | some _, none => drawEdges pos rest
    | none, _ => drawEdges pos rest

/-- The layout-and-edge part of `draw_tree` (lines 287-326): assign
generations, place the nodes, and produce the edge primitives. -/
def drawTree (members : List Nat) (rels : List RelRow) :
    Option (List ((ℚ × ℚ) × (ℚ × ℚ))) :=
  (assignGenerations members rels).map (fun gens => drawEdges (nodePositions gens) rels)

/-- A mouse-wheel event as read by `on_zoom`: `delta` (Windows wheel) and
`num` (Linux buttons 4/5). -/
structure ZoomEvent where
  delta : Int
  num : Nat
deriving DecidableEq

/-- The view state touched by `on_zoom`: the zoom scale and the pan offset
(`self.scale`, `self.offset_x`, `self.offset_y`). -/
structure ViewState where
  scale : ℚ
  offsetX : ℚ
  offsetY : ℚ
deriving DecidableEq

/-- The per-event scale factor of `on_zoom` (lines 443-453): `1.1` to zoom
in, `0.9` to zoom out, `1.0` otherwise. -/
def zoomFactor (e : ZoomEvent) : ℚ :=
  if e.delta ≠ 0 then
    if 0 < e.delta then 11 / 10 else 9 / 10
  else if e.num = 4 then 11 / 10
  else if e.num = 5 then 9 / 10
  else 1

/-- `on_zoom` (lines 436-467): `new_scale = self.scale * scale` is adopted
only when `0.1 < new_scale < 10`; otherwise nothing changes.  The pan offset
is never touched by this handler. -/
def onZoom (s : ViewState) (e : ZoomEvent) : ViewState :=
  if 1 / 10 < s.scale * zoomFactor e ∧ s.scale * zoomFactor e < 10 then
    { s with scale := s.scale * zoomFactor e }
  else
    s

/-- Modelled from the spec: the view transform of §4.4.  The source keeps the
transform inside the Tk canvas (scan/scale calls), so no world/screen
conversion code exists in `src/`; the affine map below follows the spec's
`ToScreen`/`ToWorld` contract. -/
structure ViewTransform where
  scale : ℚ
  panX : ℚ
  panY : ℚ
deriving DecidableEq

/-- Modelled from the spec: `ToWorld(screenPoint)`, the inverse of the affine
`ToScreen` map of §4.4. -/
def toWorld (t : ViewTransform) (p : ℚ × ℚ) : ℚ × ℚ :=
  ((p.1 - t.panX) / t.scale, (p.2 - t.panY) / t.scale)

/-- Squared Euclidean distance (used instead of the distance itself so the
radius test stays within rational arithmetic). -/
def distSq (a b : ℚ × ℚ) : ℚ :=
  (a.1 - b.1) ^ 2 + (a.2 - b.2) ^ 2

/-- Modelled from the spec: the centralized hit tester of §4.5.  The source
delegates per-node click geometry to canvas tag bindings
(`draw_node`, line 416) and leaves `on_canvas_click` (lines 469-477) as a
placeholder, so the geometric query itself is not in `src/`.  Following the
spec: convert the click to world space, iterate the position map in order,
return the first person within radius `R` (compared by squared distance). -/
def hitTest (t : ViewTransform) (pos : List (Nat × ℚ × ℚ)) (R : ℚ)
    (click : ℚ × ℚ) : Option Nat :=
  (pos.find? (fun q => decide (distSq (toWorld t click) q.2 ≤ R ^ 2))).map (·.1)

/-- A row of the `family_member` table: the key `member_id` plus the
remaining text columns, which `delete_member` treats opaquely. -/
structure MemberRow where
  memberId : Nat
  fields : List String
deriving DecidableEq

/-- The two tables of the database. -/
structure DBState where
  members : List MemberRow
  rels : List RelRow
deriving DecidableEq

/-- `Database.delete_member` (lines 108-118):
`DELETE FROM family_member WHERE member_id=?` followed by
`DELETE FROM relationships WHERE member_id=? OR relative_id=?`. -/
def deleteMember (db : DBState) (mid : Nat) : DBState :=
  { members := db.members.filter (fun r => !(r.memberId == mid)),
    rels := db.rels.filter (fun r => !(r.memberId == mid || r.relativeId == mid)) }

/-- The recorded generation of `k` viewed in `WithTop Nat`: an unrecorded
member counts as `⊤`.  Every mutation the traversal performs strictly
decreases this value at one key; this drives the fuel-sufficiency proof. -/
def lookupE (gens : Gens) (k : Nat) : WithTop Nat :=
  match lookupGen gens k with
  | none => ⊤
  | some v => (v : WithTop Nat)

/-- The member ids occurring on parent-labelled rows: the only ids the
traversal ever records beyond the initial member of a call. -/
def parentEndpoints (rels : List RelRow) : Finset Nat :=
  ((parentRels rels).map (·.memberId)).toFinset ∪
    ((parentRels rels).map (·.relativeId)).toFinset

/-- The number of parent-edge endpoints whose recorded generation is still
above `g`: the potential that bounds the remaining recursion depth. -/
def countAbove (rels : List RelRow) (g : Nat) (gens : Gens) : Nat :=
  ((parentEndpoints rels).filter (fun k => (g : WithTop Nat) < lookupE gens k)).card

/-! ### Basic dictionary lemmas -/

theorem lookupGen_insert_self (gens : Gens) (m g : Nat) :
    lookupGen (insertGen gens m g) m = some g := by
  induction gens with
  | nil => simp [insertGen, lookupGen]
  | cons p l ih =>
    obtain ⟨k, v⟩ := p
    by_cases h : k = m
    · simp [insertGen, h, lookupGen]
    · simp [insertGen, h, lookupGen, ih]

theorem lookupGen_insert_ne (gens : Gens) (m g z : Nat) (h : z ≠ m) :
    lookupGen (insertGen gens m g) z = lookupGen gens z := by
  have hmz : ¬ m = z := fun hc => h hc.symm
  induction gens with
  | nil =>
    show lookupGen [(m, g)] z = none
    simp [lookupGen, hmz]
  | cons p l ih =>
    obtain ⟨k, v⟩ := p
    by_cases hk : k = m
    · subst hk
      show lookupGen (if k = k then (k, g) :: l else _) z = _
      rw [if_pos rfl]
      show (if k = z then some g else lookupGen l z) =
        (if k = z then some v else lookupGen l z)
      rw [if_neg hmz, if_neg hmz]
    · show lookupGen (if k = m then _ else (k, v) :: insertGen l m g) z = _
      rw [if_neg hk]
      show (if k = z then some v else lookupGen (insertGen l m g) z) =
        (if k = z then some v else lookupGen l z)
      by_cases hz : k = z
      · rw [if_pos hz, if_pos hz]
      · rw [if_neg hz, if_neg hz, ih]

theorem bindList_nil (f : Nat → Gens → Option Gens) (gens : Gens) :
    bindList f [] gens = some gens := rfl

theorem bindList_cons (f : Nat → Gens → Option Gens) (c : Nat) (cs : List Nat)
    (gens : Gens) :
    bindList f (c :: cs) gens =
      match f c gens with
      | none => none
      | some gens' => bindList f cs gens' := rfl

theorem assignGenRec_zero (rels : List RelRow) (m g : Nat) (gens : Gens) :
    assignGenRec rels 0 m g gens = none := rfl

theorem assignGenRec_succ (rels : List RelRow) (fuel m g : Nat) (gens : Gens) :
    assignGenRec rels (fuel + 1) m g gens =
      match lookupGen gens m with
      | some v =>
        if g < v then
          assignGenList rels fuel (childrenOf rels m) (g + 1) (insertGen gens m g)
        else
          some gens
      | none =>
        assignGenList rels fuel (childrenOf rels m) (g + 1) (insertGen gens m g) := rfl

theorem assignGenRec_succ_of_none (rels : List RelRow) (fuel m g : Nat) (gens : Gens)
    (h : lookupGen gens m = none) :
    assignGenRec rels (fuel + 1) m g gens =
      assignGenList rels fuel (childrenOf rels m) (g + 1) (insertGen gens m g) := by
  rw [assignGenRec_succ, h]

theorem assignGenRec_succ_of_lt (rels : List RelRow) (fuel m g v : Nat) (gens : Gens)
    (h : lookupGen gens m = some v) (hg : g < v) :
    assignGenRec rels (fuel + 1) m g gens =
      assignGenList rels fuel (childrenOf rels m) (g + 1) (insertGen gens m g) := by
  rw [assignGenRec_succ, h]
  exact if_pos hg

theorem assignGenRec_succ_of_ge (rels : List RelRow) (fuel m g v : Nat) (gens : Gens)
    (h : lookupGen gens m = some v) (hg : ¬ g < v) :
    assignGenRec rels (fuel + 1) m g gens = some gens := by
  rw [assignGenRec_succ, h]
  exact if_neg hg

/-- C2: the revisit policy of `assign_generation_recursive` holds exactly:
reaching a member already recorded with a strictly larger value overwrites the
record with the smaller value `g` and continues into the children of that
member at
`g + 1`; reaching a member recorded with a value that is not larger returns at
once, leaving the map unchanged and never descending into the children. -/
theorem revisit_policy_exact (rels : List RelRow) (fuel m g v : Nat) (gens : Gens)
    (h : lookupGen gens m = some v) :
    (g < v →
      assignGenRec rels (fuel + 1) m g gens =
        assignGenList rels fuel (childrenOf rels m) (g + 1) (insertGen gens m g) ∧
      lookupGen (insertGen gens m g) m = some g) ∧
    (¬ g < v → assignGenRec rels (fuel + 1) m g gens = some gens) := by
  constructor
  · intro hg
    exact ⟨assignGenRec_succ_of_lt rels fuel m g v gens h hg, lookupGen_insert_self gens m g⟩
  · intro hg
    exact assignGenRec_succ_of_ge rels fuel m g v gens h hg

/-- Witness for `revisit_policy_exact`: member `1` is recorded with value `5`;
reached with the smaller value `0`, the record becomes `0` and the traversal
continues via the child loop; reached with the equal value `5`, the call
returns the map unchanged. -/
theorem revisit_policy_exact_witness :
    lookupGen [(1, 5)] 1 = some 5 ∧
    assignGenRec [] 1 1 0 [(1, 5)] =
      assignGenList [] 0 (childrenOf [] 1) 1 (insertGen [(1, 5)] 1 0) ∧
    assignGenRec [] 1 1 5 [(1, 5)] = some [(1, 5)] :=
  ⟨by decide,
    ((revisit_policy_exact [] 0 1 0 5 [(1, 5)] (by decide)).1 (by decide)).1,
    (revisit_policy_exact [] 0 1 5 5 [(1, 5)] (by decide)).2 (by decide)⟩

/-- C10: deleting a member removes its row from `family_member` and every
`relationships` row in which it occurs as either endpoint, regardless of the
relationship type, while every other member row and every relationship row
not referencing it survives unchanged and in order (a sublist of the
original tables). -/
theorem delete_member_effect (db : DBState) (mid : Nat) :
    (∀ r : MemberRow, r ∈ (deleteMember db mid).members ↔
      r ∈ db.members ∧ r.memberId ≠ mid) ∧
    (∀ r : RelRow, r ∈ (deleteMember db mid).rels ↔
      r ∈ db.rels ∧ r.memberId ≠ mid ∧ r.relativeId ≠ mid) ∧
    (deleteMember db mid).members.Sublist db.members ∧
    (deleteMember db mid).rels.Sublist db.rels := by
  refine ⟨?_, ?_, List.filter_sublist _, List.filter_sublist _⟩
  · intro r
    simp [deleteMember, List.mem_filter]
  · intro r
    simp [deleteMember, List.mem_filter, not_or, and_assoc]

/-! ### Zoom clamping (C7) -/

/-- Counterexample to the claim that `on_zoom` adopts every `newScale` inside
the closed interval `[0.1, 10.0]`: from scale `100/11` a zoom-in event gives
`newScale = 10`, which lies inside `[0.1, 10]`, yet the strict source test
`0.1 < new_scale < 10` rejects it and the scale stays `100/11`. -/
theorem zoom_boundary_cex :
    (100 / 11 : ℚ) * zoomFactor ⟨1, 0⟩ = 10 ∧
    ((1 : ℚ) / 10 ≤ 10 ∧ (10 : ℚ) ≤ 10) ∧
    onZoom ⟨100 / 11, 0, 0⟩ ⟨1, 0⟩ = ⟨100 / 11, 0, 0⟩ ∧
    (100 / 11 : ℚ) ≠ 10 := by
  refine ⟨by norm_num [zoomFactor], ⟨by norm_num, by norm_num⟩, ?_, by norm_num⟩
  rw [onZoom, if_neg]
  norm_num [zoomFactor]

/-- C7 (amended): `on_zoom` computes `newScale = scale * factor` and adopts
it exactly when `0.1 < newScale < 10` holds strictly; otherwise (including
`newScale` exactly `0.1` or `10`) the event is a no-op.  The pan offset is
never modified, and a scale strictly inside `(0.1, 10)` stays strictly
inside. -/
theorem zoom_clamp_behavior (s : ViewState) (e : ZoomEvent) :
    ((1 / 10 < s.scale * zoomFactor e ∧ s.scale * zoomFactor e < 10) →
      onZoom s e = { s with scale := s.scale * zoomFactor e }) ∧
    (¬ (1 / 10 < s.scale * zoomFactor e ∧ s.scale * zoomFactor e < 10) →
      onZoom s e = s) ∧
    (onZoom s e).offsetX = s.offsetX ∧
    (onZoom s e).offsetY = s.offsetY ∧
    (1 / 10 < s.scale → s.scale < 10 →
      1 / 10 < (onZoom s e).scale ∧ (onZoom s e).scale < 10) := by
  by_cases h : 1 / 10 < s.scale * zoomFactor e ∧ s.scale * zoomFactor e < 10
  · refine ⟨fun _ => ?_, fun hc => absurd h hc, ?_, ?_, fun _ _ => ?_⟩ <;>
      simp only [onZoom, if_pos h]
    exact ⟨h.1, h.2⟩
  · refine ⟨fun hc => absurd hc h, fun _ => ?_, ?_, ?_, fun h1 h2 => ?_⟩ <;>
      simp only [onZoom, if_neg h]
    exact ⟨h1, h2⟩

/-- Witness for `zoom_clamp_behavior`: a zoom-in event at scale `1` adopts
the new scale `11/10`, and the invariant keeps it inside `(0.1, 10)`. -/
theorem zoom_clamp_behavior_witness :
    onZoom ⟨1, 0, 0⟩ ⟨1, 0⟩ = ⟨(1 : ℚ) * zoomFactor ⟨1, 0⟩, 0, 0⟩ ∧
    (1 / 10 < (onZoom ⟨1, 0, 0⟩ ⟨1, 0⟩).scale ∧ (onZoom ⟨1, 0, 0⟩ ⟨1, 0⟩).scale < 10) :=
  ⟨(zoom_clamp_behavior ⟨1, 0, 0⟩ ⟨1, 0⟩).1 (by norm_num [zoomFactor]),
    (zoom_clamp_behavior ⟨1, 0, 0⟩ ⟨1, 0⟩).2.2.2.2 (by norm_num) (by norm_num)⟩

/-! ### The edge draw list (C8) -/

/-- Counterexample to the claim that the draw list holds one primitive
exactly per parent-edge with both endpoints placed, and that edges
referencing a deleted person are excluded: a `spouse` edge between two placed
members is drawn, and a `parent` edge whose target `99` is not a member (a
stale reference after deleting `99`) still receives a position through the
traversal and is drawn. -/
theorem draw_edges_cex :
    drawTree [1, 2] [⟨1, 1, 2, "spouse"⟩] = some [((925, 100), (1075, 100))] ∧
    parentRels [⟨1, 1, 2, "spouse"⟩] = [] ∧
    drawTree [1] [⟨1, 1, 99, "parent"⟩] = some [((1000, 100), (1000, 300))] ∧
    ¬ (99 : Nat) ∈ [1] := by
  have hg1 : assignGenerations [1, 2] [⟨1, 1, 2, "spouse"⟩] = some [(1, 0), (2, 0)] := by
    decide
  have hp1 : nodePositions [(1, 0), (2, 0)] = [(1, 925, 100), (2, 1075, 100)] := by
    norm_num [nodePositions, genMembers, addToGroup, positionsOfRows, rowPositions,
      List.enum, List.enumFrom]
  have hg2 : assignGenerations [1] [⟨1, 1, 99, "parent"⟩] = some [(1, 0), (99, 1)] := by
    decide
  have hp2 : nodePositions [(1, 0), (99, 1)] = [(1, 1000, 100), (99, 1000, 300)] := by
    norm_num [nodePositions, genMembers, addToGroup, positionsOfRows, rowPositions,
      List.enum, List.enumFrom]
  refine ⟨?_, by decide, ?_, by decide⟩
  · rw [drawTree, hg1, Option.map_some', hp1]
    simp [drawEdges, lookupPos]
  · rw [drawTree, hg2, Option.map_some', hp2]
    simp [drawEdges, lookupPos]

/-- C8 (amended): the edge pass of `draw_tree` emits one primitive per
relationship row of any type whose both endpoints are present in the
node-position map, in row order, and silently skips every row with a missing
endpoint; a row referencing a person absent from the position map is thereby
excluded, but a person can be positioned (and its rows drawn) without being a
member when it is the target of a parent edge reached from a root. -/
theorem draw_edges_characterization (pos : List (Nat × ℚ × ℚ)) (rels : List RelRow) :
    drawEdges pos rels =
      (rels.filter (fun r => (lookupPos pos r.memberId).isSome &&
          (lookupPos pos r.relativeId).isSome)).map
        (fun r => ((lookupPos pos r.memberId).getD (0, 0),
          (lookupPos pos r.relativeId).getD (0, 0))) := by
  induction rels with
  | nil => rfl
  | cons r rest ih =>
    cases h1 : lookupPos pos r.memberId <;> cases h2 : lookupPos pos r.relativeId <;>
      simp [drawEdges, h1, h2, ih, List.filter_cons]

/-! ### The concrete three-person example (C4) -/

/-- C4: for members `{1, 2, 3}` with the single parent edge `1 → 2`,
the generations are `{1 ↦ 0, 2 ↦ 1, 3 ↦ 0}`; the layout puts `1` and `3` in
row 0 at `x = 925` and `x = 1075` (in that deterministic order, `y = 100`)
and `2` alone in row 1 at `x = 1000`, `y = 300`. -/
theorem layout_concrete_example :
    assignGenerations [1, 2, 3] [⟨1, 1, 2, "parent"⟩] = some [(1, 0), (2, 1), (3, 0)] ∧
    nodePositions [(1, 0), (2, 1), (3, 0)] =
      [(1, 925, 100), (3, 1075, 100), (2, 1000, 300)] := by
  refine ⟨by decide, ?_⟩
  norm_num [nodePositions, genMembers, addToGroup, positionsOfRows, rowPositions,
    List.enum, List.enumFrom]

/-! ### The cycle counterexample for coverage (C1) -/

/-- Counterexample to the claim that `assign_generations` covers every
member: with members `{1, 2}` and the parent cycle `1 → 2`, `2 → 1`, both
members are targets of parent edges, so there is no root, the traversal never
starts, and the returned mapping is empty — member `1` receives no
generation. -/
theorem cycle_uncovered_cex :
    assignGenerations [1, 2] [⟨1, 1, 2, "parent"⟩, ⟨2, 2, 1, "parent"⟩] = some [] ∧
    (1 : Nat) ∈ [1, 2] ∧
    lookupGen [] 1 = none := by
  refine ⟨?_, by decide, by decide⟩
  decide

/-! ### The row layout formula (C5) -/

/-- C5: in a generation row of `n` persons the i-th person (0-indexed) is
placed at `x = 1000 - ((n - 1) / 2) * 150 + i * 150` and
`y = 100 + generation * 200`; an empty row produces no positions, and a
single-person row is centered exactly at `x = 1000`. -/
theorem row_layout_formula :
    (∀ (g : Nat) (ms : List Nat) (i : Nat),
      (rowPositions g ms)[i]? =
        ms[i]?.map (fun m =>
          (m, 1000 - ((ms.length : ℚ) - 1) / 2 * 150 + (i : ℚ) * 150,
            100 + (g : ℚ) * 200))) ∧
    (∀ g : Nat, rowPositions g [] = []) ∧
    (∀ (g m : Nat), rowPositions g [m] = [(m, 1000, 100 + (g : ℚ) * 200)]) := by
  refine ⟨?_, fun g => rfl, ?_⟩
  · intro g ms i
    rw [rowPositions, List.getElem?_map, List.getElem?_enum]
    cases ms[i]? <;> rfl
  · intro g m
    norm_num [rowPositions, List.enum, List.enumFrom]

/-! ### Hit testing (C9) -/

/-- Counterexample to the claim that a click exactly at the world position
of a node returns the id of that node: with node `1` at the origin, node `2` at
`(10, 0)` (both within radius `40` of each other), a click exactly at node
`2` exactly under the click point, the hit test returns node `1`, the first
match in iteration order. -/
theorem hit_test_first_match_cex :
    toWorld ⟨1, 0, 0⟩ (10, 0) = (10, 0) ∧
    distSq (10, 0) (1, 2) ≤ (40 : ℚ) ^ 2 ∧
    hitTest ⟨1, 0, 0⟩ [(1, 1, 2), (2, 10, 0)] 40 (10, 0) = some 1 ∧
    (1 : Nat) ≠ 2 := by
  have hp : distSq (toWorld ⟨1, 0, 0⟩ (10, 0)) ((1 : ℚ), (2 : ℚ)) ≤ (40 : ℚ) ^ 2 := by
    norm_num [toWorld, distSq]
  refine ⟨by norm_num [toWorld], by norm_num [distSq], ?_, by decide⟩
  simp [hitTest, List.find?, decide_eq_true hp]

/-- C9 (amended, modelled from the spec §4.5): the hit tester converts the
click to world space and returns the first person in iteration order whose
squared world-space distance from the click is within `R²` (first-match, not
nearest-match); a click farther than `R` from every node yields no
selection, and a click exactly at the position of a node returns that node
provided no earlier node in iteration order is within `R` of the click. -/
theorem hit_test_policy (t : ViewTransform) (R : ℚ) (click : ℚ × ℚ) :
    (∀ pos : List (Nat × ℚ × ℚ),
      (∀ q ∈ pos, ¬ distSq (toWorld t click) q.2 ≤ R ^ 2) →
      hitTest t pos R click = none) ∧
    (∀ (pre post : List (Nat × ℚ × ℚ)) (n : Nat) (x y : ℚ),
      toWorld t click = (x, y) →
      (∀ q ∈ pre, ¬ distSq (toWorld t click) q.2 ≤ R ^ 2) →
      hitTest t (pre ++ (n, x, y) :: post) R click = some n) := by
  constructor
  · intro pos h
    rw [hitTest, List.find?_eq_none.mpr, Option.map_none']
    intro q hq
    simp only [decide_eq_true_eq]
    exact h q hq
  · intro pre post n x y hxy hpre
    induction pre with
    | nil =>
      have hz : distSq ((x : ℚ), (y : ℚ)) (x, y) = 0 := by
        simp [distSq]
      have h0 : distSq (toWorld t click) ((x : ℚ), (y : ℚ)) ≤ R ^ 2 := by
        rw [hxy, hz]
        positivity
      simp [hitTest, List.find?, decide_eq_true h0]
    | cons q pre ih =>
      have hq : ¬ distSq (toWorld t click) q.2 ≤ R ^ 2 :=
        hpre q (List.mem_cons_self q pre)
      have hpre' : ∀ p ∈ pre, ¬ distSq (toWorld t click) p.2 ≤ R ^ 2 :=
        fun p hp => hpre p (List.mem_cons_of_mem q hp)
      have ihq := ih hpre'
      rw [hitTest] at ihq ⊢
      rw [List.cons_append]
      simp only [List.find?, decide_eq_false hq]
      exact ihq

/-- Witness for `hit_test_policy`: a single node at world `(5, 5)` under the
identity transform is selected by a click exactly on it. -/
theorem hit_test_policy_witness :
    hitTest ⟨1, 0, 0⟩ [(3, 5, 5)] 40 (5, 5) = some 3 :=
  (hit_test_policy ⟨1, 0, 0⟩ 40 (5, 5)).2 [] [] 3 5 5 (by norm_num [toWorld])
    (by simp)

/-! ### Monotonicity of the traversal: records only ever decrease -/

theorem assignGenList_eq (rels : List RelRow) (fuel : Nat) (cs : List Nat) (g : Nat)
    (gens : Gens) :
    assignGenList rels fuel cs g gens =
      bindList (fun c gs => assignGenRec rels fuel c g gs) cs gens := rfl

theorem lookupE_eq_top (gens : Gens) (k : Nat) (h : lookupGen gens k = none) :
    lookupE gens k = ⊤ := by
  simp only [lookupE, h]

theorem lookupE_eq_coe (gens : Gens) (k v : Nat) (h : lookupGen gens k = some v) :
    lookupE gens k = (v : WithTop Nat) := by
  simp only [lookupE, h]

theorem lookupE_insert_self (gens : Gens) (m g : Nat) :
    lookupE (insertGen gens m g) m = (g : WithTop Nat) := by
  simp only [lookupE, lookupGen_insert_self]

theorem lookupE_insert_ne (gens : Gens) (m g z : Nat) (h : z ≠ m) :
    lookupE (insertGen gens m g) z = lookupE gens z := by
  simp only [lookupE, lookupGen_insert_ne gens m g z h]

theorem insertGen_lookupE_le (gens : Gens) (m g : Nat)
    (h : (g : WithTop Nat) ≤ lookupE gens m) (k : Nat) :
    lookupE (insertGen gens m g) k ≤ lookupE gens k := by
  by_cases hk : k = m
  · subst hk
    rw [lookupE_insert_self]
    exact h
  · rw [lookupE_insert_ne gens m g k hk]

theorem bindList_lookupE_le (f : Nat → Gens → Option Gens)
    (hf : ∀ c gs gs', f c gs = some gs' → ∀ k, lookupE gs' k ≤ lookupE gs k) :
    ∀ (cs : List Nat) (gens gens' : Gens),
      bindList f cs gens = some gens' → ∀ k, lookupE gens' k ≤ lookupE gens k := by
  intro cs
  induction cs with
  | nil =>
    intro gens gens' h k
    rw [bindList_nil] at h
    cases h
    exact le_refl _
  | cons c cs ih =>
    intro gens gens' h k
    rw [bindList_cons] at h
    cases hfc : f c gens with
    | none => rw [hfc] at h; cases h
    | some gs1 =>
      rw [hfc] at h
      exact le_trans (ih gs1 gens' h k) (hf c gens gs1 hfc k)

theorem assignGenRec_lookupE_le (rels : List RelRow) :
    ∀ (fuel m g : Nat) (gens gens' : Gens),
      assignGenRec rels fuel m g gens = some gens' →
      ∀ k, lookupE gens' k ≤ lookupE gens k := by
  intro fuel
  induction fuel with
  | zero =>
    intro m g gens gens' h
    rw [assignGenRec_zero] at h
    cases h
  | succ fuel ih =>
    intro m g gens gens' h k
    cases hl : lookupGen gens m with
    | some v =>
      by_cases hg : g < v
      · rw [assignGenRec_succ_of_lt rels fuel m g v gens hl hg, assignGenList_eq] at h
        have hins : ∀ j, lookupE (insertGen gens m g) j ≤ lookupE gens j := by
          refine insertGen_lookupE_le gens m g ?_
          rw [lookupE_eq_coe gens m v hl]
          exact_mod_cast le_of_lt hg
        exact le_trans
          (bindList_lookupE_le _ (fun c gs gs' hc => ih c (g + 1) gs gs' hc) _ _ _ h k)
          (hins k)
      · rw [assignGenRec_succ_of_ge rels fuel m g v gens hl hg] at h
        cases h
        exact le_refl _
    | none =>
      rw [assignGenRec_succ_of_none rels fuel m g gens hl, assignGenList_eq] at h
      have hins : ∀ j, lookupE (insertGen gens m g) j ≤ lookupE gens j := by
        refine insertGen_lookupE_le gens m g ?_
        rw [lookupE_eq_top gens m hl]
        exact le_top
      exact le_trans
        (bindList_lookupE_le _ (fun c gs gs' hc => ih c (g + 1) gs gs' hc) _ _ _ h k)
        (hins k)

/-! ### The potential function bounding the recursion depth -/

theorem countAbove_le (rels : List RelRow) (g : Nat) (gens : Gens) :
    countAbove rels g gens ≤ (parentEndpoints rels).card :=
  Finset.card_filter_le _ _

theorem card_parentEndpoints_le (rels : List RelRow) :
    (parentEndpoints rels).card ≤ 2 * (parentRels rels).length := by
  have h1 := Finset.card_union_le ((parentRels rels).map (·.memberId)).toFinset
    ((parentRels rels).map (·.relativeId)).toFinset
  have h2 := List.toFinset_card_le ((parentRels rels).map (·.memberId))
  have h3 := List.toFinset_card_le ((parentRels rels).map (·.relativeId))
  rw [List.length_map] at h2 h3
  calc (parentEndpoints rels).card ≤ _ := h1
  _ ≤ 2 * (parentRels rels).length := by omega

theorem countAbove_mono_of_le (rels : List RelRow) (g : Nat) (gens1 gens2 : Gens)
    (h : ∀ k, lookupE gens1 k ≤ lookupE gens2 k) :
    countAbove rels g gens1 ≤ countAbove rels g gens2 := by
  apply Finset.card_le_card
  intro k hk
  rw [Finset.mem_filter] at hk ⊢
  exact ⟨hk.1, lt_of_lt_of_le hk.2 (h k)⟩

theorem countAbove_insert_lt (rels : List RelRow) (gens : Gens) (m g : Nat)
    (hm : m ∈ parentEndpoints rels) (hg : (g : WithTop Nat) < lookupE gens m) :
    countAbove rels (g + 1) (insertGen gens m g) < countAbove rels g gens := by
  unfold countAbove
  have hmem : m ∈ (parentEndpoints rels).filter
      (fun k => (g : WithTop Nat) < lookupE gens k) :=
    Finset.mem_filter.mpr ⟨hm, hg⟩
  refine lt_of_le_of_lt (Finset.card_le_card ?_) (Finset.card_erase_lt_of_mem hmem)
  intro k hk
  rw [Finset.mem_filter] at hk
  obtain ⟨hkE, hklt⟩ := hk
  have hkm : k ≠ m := by
    intro he
    subst he
    rw [lookupE_insert_self] at hklt
    have : g + 1 < g := by exact_mod_cast hklt
    omega
  rw [Finset.mem_erase]
  refine ⟨hkm, Finset.mem_filter.mpr ⟨hkE, ?_⟩⟩
  rw [lookupE_insert_ne gens m g k hkm] at hklt
  have hlt' : (g : WithTop Nat) < ((g + 1 : Nat) : WithTop Nat) := by
    exact_mod_cast Nat.lt_succ_self g
  exact lt_trans hlt' hklt

/-! ### The parent-edge endpoints cover everything the traversal touches -/

theorem child_mem_parentsOf (rels : List RelRow) (m c : Nat)
    (h : c ∈ childrenOf rels m) : c ∈ parentsOf rels := by
  rw [childrenOf] at h
  rw [List.mem_map] at h
  obtain ⟨r, hr, hrc⟩ := h
  rw [List.mem_filter] at hr
  obtain ⟨hrl, hcond⟩ := hr
  rw [Bool.and_eq_true] at hcond
  rw [parentsOf, List.mem_map]
  exact ⟨r, List.mem_filter.mpr ⟨hrl, hcond.2⟩, hrc⟩

theorem child_mem_parentEndpoints (rels : List RelRow) (m c : Nat)
    (h : c ∈ childrenOf rels m) :
    m ∈ parentEndpoints rels ∧ c ∈ parentEndpoints rels := by
  rw [childrenOf] at h
  rw [List.mem_map] at h
  obtain ⟨r, hr, hrc⟩ := h
  rw [List.mem_filter] at hr
  obtain ⟨hrl, hcond⟩ := hr
  rw [Bool.and_eq_true] at hcond
  have hrm : r.memberId = m := by
    have := hcond.1
    rwa [beq_iff_eq] at this
  have hrP : r ∈ parentRels rels := List.mem_filter.mpr ⟨hrl, hcond.2⟩
  constructor
  · exact Finset.mem_union_left _ (List.mem_toFinset.mpr
      (List.mem_map.mpr ⟨r, hrP, hrm⟩))
  · exact Finset.mem_union_right _ (List.mem_toFinset.mpr
      (List.mem_map.mpr ⟨r, hrP, hrc⟩))

theorem mem_parentEndpoints_of_children_ne_nil (rels : List RelRow) (m : Nat)
    (h : childrenOf rels m ≠ []) : m ∈ parentEndpoints rels := by
  cases hcs : childrenOf rels m with
  | nil => exact absurd hcs h
  | cons c cs =>
    exact (child_mem_parentEndpoints rels m c
      (by rw [hcs]; exact List.mem_cons_self c cs)).1

/-! ### Fuel sufficiency: the exhaustion branch is unreachable -/

theorem bindList_isSome (rels : List RelRow) (f : Nat → Gens → Option Gens)
    (bound g' : Nat)
    (hsome : ∀ c gs, countAbove rels g' gs < bound → (f c gs).isSome)
    (hle : ∀ c gs gs', f c gs = some gs' → ∀ k, lookupE gs' k ≤ lookupE gs k) :
    ∀ (cs : List Nat) (gens : Gens),
      countAbove rels g' gens < bound → (bindList f cs gens).isSome := by
  intro cs
  induction cs with
  | nil =>
    intro gens _
    rw [bindList_nil]
    rfl
  | cons c cs ih =>
    intro gens h
    rw [bindList_cons]
    cases hfc : f c gens with
    | none =>
      have hs := hsome c gens h
      rw [hfc] at hs
      exact absurd hs (by simp)
    | some gs1 =>
      have hmono : countAbove rels g' gs1 ≤ countAbove rels g' gens :=
        countAbove_mono_of_le rels g' gs1 gens (hle c gens gs1 hfc)
      exact ih gs1 (lt_of_le_of_lt hmono h)

theorem assignGenRec_isSome (rels : List RelRow) :
    ∀ (fuel m g : Nat) (gens : Gens),
      countAbove rels g gens < fuel → (assignGenRec rels fuel m g gens).isSome := by
  intro fuel
  induction fuel with
  | zero =>
    intro m g gens h
    exact absurd h (Nat.not_lt_zero _)
  | succ fuel ih =>
    intro m g gens h
    have hlist : ∀ gens0 : Gens,
        countAbove rels (g + 1) gens0 < fuel →
        (assignGenList rels fuel (childrenOf rels m) (g + 1) gens0).isSome := by
      intro gens0 h0
      rw [assignGenList_eq]
      exact bindList_isSome rels _ fuel (g + 1)
        (fun c gs hgs => ih c (g + 1) gs hgs)
        (fun c gs gs' hc => assignGenRec_lookupE_le rels fuel c (g + 1) gs gs' hc)
        (childrenOf rels m) gens0 h0
    cases hl : lookupGen gens m with
    | some v =>
      by_cases hg : g < v
      · rw [assignGenRec_succ_of_lt rels fuel m g v gens hl hg]
        by_cases hcs : childrenOf rels m = []
        · rw [assignGenList_eq, hcs, bindList_nil]
          rfl
        · have hmE : m ∈ parentEndpoints rels :=
            mem_parentEndpoints_of_children_ne_nil rels m hcs
          have hgm : (g : WithTop Nat) < lookupE gens m := by
            rw [lookupE_eq_coe gens m v hl]
            exact_mod_cast hg
          exact hlist _ (lt_of_lt_of_le
            (countAbove_insert_lt rels gens m g hmE hgm) (Nat.lt_succ_iff.mp h))
      · rw [assignGenRec_succ_of_ge rels fuel m g v gens hl hg]
        rfl
    | none =>
      rw [assignGenRec_succ_of_none rels fuel m g gens hl]
      by_cases hcs : childrenOf rels m = []
      · rw [assignGenList_eq, hcs, bindList_nil]
        rfl
      · have hmE : m ∈ parentEndpoints rels :=
          mem_parentEndpoints_of_children_ne_nil rels m hcs
        have hgm : (g : WithTop Nat) < lookupE gens m := by
          rw [lookupE_eq_top gens m hl]
          exact_mod_cast WithTop.coe_lt_top g
        exact hlist _ (lt_of_lt_of_le
          (countAbove_insert_lt rels gens m g hmE hgm) (Nat.lt_succ_iff.mp h))

theorem assignGenerations_isSome (members : List Nat) (rels : List RelRow) :
    (assignGenerations members rels).isSome := by
  rw [assignGenerations]
  refine bindList_isSome rels _ (startFuel rels) 0
    (fun c gs hgs => assignGenRec_isSome rels (startFuel rels) c 0 gs hgs)
    (fun c gs gs' hc => assignGenRec_lookupE_le rels (startFuel rels) c 0 gs gs' hc)
    (rootsOf members rels) [] ?_
  calc countAbove rels 0 [] ≤ (parentEndpoints rels).card := countAbove_le rels 0 []
  _ ≤ 2 * (parentRels rels).length := card_parentEndpoints_le rels
  _ < startFuel rels := Nat.lt_succ_self _

/-- C3: generation assignment terminates with a result (never exhausts its
recursion-depth budget, the embedded counterpart of the source recursion
terminating) and raises no error, for every finite member list and every
finite edge list, including cyclic parent chains and disconnected
subgraphs. -/
theorem assignGenerations_terminates (members : List Nat) (rels : List RelRow) :
    ∃ gens, assignGenerations members rels = some gens :=
  Option.isSome_iff_exists.mp (assignGenerations_isSome members rels)

/-! ### Roots receive generation zero (C1, amended) -/

theorem bindList_lookup_preserve (z : Nat) (f : Nat → Gens → Option Gens) :
    ∀ cs : List Nat,
      (∀ c ∈ cs, ∀ gs gs', f c gs = some gs' → lookupGen gs' z = lookupGen gs z) →
      ∀ gens gens', bindList f cs gens = some gens' →
        lookupGen gens' z = lookupGen gens z := by
  intro cs
  induction cs with
  | nil =>
    intro _ gens gens' h
    rw [bindList_nil] at h
    cases h
    rfl
  | cons c cs ih =>
    intro hf gens gens' h
    rw [bindList_cons] at h
    cases hfc : f c gens with
    | none => rw [hfc] at h; cases h
    | some gs1 =>
      rw [hfc] at h
      rw [ih (fun c' hc' => hf c' (List.mem_cons_of_mem c hc')) gs1 gens' h]
      exact hf c (List.mem_cons_self c cs) gens gs1 hfc

theorem assignGenRec_lookup_preserve (rels : List RelRow) (z : Nat)
    (hz : z ∉ parentsOf rels) :
    ∀ (fuel m g : Nat) (gens gens' : Gens), z ≠ m →
      assignGenRec rels fuel m g gens = some gens' →
      lookupGen gens' z = lookupGen gens z := by
  intro fuel
  induction fuel with
  | zero =>
    intro m g gens gens' _ h
    rw [assignGenRec_zero] at h
    cases h
  | succ fuel ih =>
    intro m g gens gens' hzm h
    have hchild : ∀ c ∈ childrenOf rels m, ∀ gs gs',
        assignGenRec rels fuel c (g + 1) gs = some gs' →
        lookupGen gs' z = lookupGen gs z := by
      intro c hc gs gs' hrec
      have hzc : z ≠ c := fun he => hz (he ▸ child_mem_parentsOf rels m c hc)
      exact ih c (g + 1) gs gs' hzc hrec
    cases hl : lookupGen gens m with
    | some v =>
      by_cases hg : g < v
      · rw [assignGenRec_succ_of_lt rels fuel m g v gens hl hg, assignGenList_eq] at h
        rw [bindList_lookup_preserve z _ (childrenOf rels m) hchild _ _ h]
        exact lookupGen_insert_ne gens m g z hzm
      · rw [assignGenRec_succ_of_ge rels fuel m g v gens hl hg] at h
        cases h
        rfl
    | none =>
      rw [assignGenRec_succ_of_none rels fuel m g gens hl, assignGenList_eq] at h
      rw [bindList_lookup_preserve z _ (childrenOf rels m) hchild _ _ h]
      exact lookupGen_insert_ne gens m g z hzm

theorem assignGenRec_root_zero (rels : List RelRow) (m : Nat)
    (hz : m ∉ parentsOf rels) :
    ∀ (fuel : Nat) (gens gens' : Gens),
      assignGenRec rels fuel m 0 gens = some gens' →
      lookupGen gens m = none ∨ lookupGen gens m = some 0 →
      lookupGen gens' m = some 0 := by
  intro fuel gens gens' h hdisj
  cases fuel with
  | zero =>
    rw [assignGenRec_zero] at h
    cases h
  | succ fuel =>
    have hchild : ∀ c ∈ childrenOf rels m, ∀ gs gs',
        assignGenRec rels fuel c (0 + 1) gs = some gs' →
        lookupGen gs' m = lookupGen gs m := by
      intro c hc gs gs' hrec
      have hmc : m ≠ c := fun he => hz (he ▸ child_mem_parentsOf rels m c hc)
      exact assignGenRec_lookup_preserve rels m hz fuel c (0 + 1) gs gs' hmc hrec
    cases hdisj with
    | inl hl =>
      rw [assignGenRec_succ_of_none rels fuel m 0 gens hl, assignGenList_eq] at h
      rw [bindList_lookup_preserve m _ (childrenOf rels m) hchild _ _ h]
      exact lookupGen_insert_self gens m 0
    | inr hl =>
      rw [assignGenRec_succ_of_ge rels fuel m 0 0 gens hl (lt_irrefl 0)] at h
      cases h
      exact hl

theorem bindList_roots_keep (rels : List RelRow) (fuel m0 : Nat)
    (hz : m0 ∉ parentsOf rels) :
    ∀ (ms : List Nat) (gens gens' : Gens),
      bindList (fun m gs => assignGenRec rels fuel m 0 gs) ms gens = some gens' →
      lookupGen gens m0 = some 0 → lookupGen gens' m0 = some 0 := by
  intro ms
  induction ms with
  | nil =>
    intro gens gens' h h0
    rw [bindList_nil] at h
    cases h
    exact h0
  | cons r ms ih =>
    intro gens gens' h h0
    rw [bindList_cons] at h
    cases hfc : assignGenRec rels fuel r 0 gens with
    | none => rw [hfc] at h; cases h
    | some gs1 =>
      rw [hfc] at h
      by_cases hr : m0 = r
      · subst hr
        exact ih gs1 gens' h
          (assignGenRec_root_zero rels m0 hz fuel gens gs1 hfc (Or.inr h0))
      · refine ih gs1 gens' h ?_
        rw [assignGenRec_lookup_preserve rels m0 hz fuel r 0 gens gs1 hr hfc]
        exact h0

theorem bindList_roots_zero (rels : List RelRow) (fuel m0 : Nat)
    (hz : m0 ∉ parentsOf rels) :
    ∀ (ms : List Nat) (gens gens' : Gens),
      bindList (fun m gs => assignGenRec rels fuel m 0 gs) ms gens = some gens' →
      m0 ∈ ms →
      lookupGen gens m0 = none ∨ lookupGen gens m0 = some 0 →
      lookupGen gens' m0 = some 0 := by
  intro ms
  induction ms with
  | nil =>
    intro gens gens' _ hmem
    cases hmem
  | cons r ms ih =>
    intro gens gens' h hmem hdisj
    rw [bindList_cons] at h
    cases hfc : assignGenRec rels fuel r 0 gens with
    | none => rw [hfc] at h; cases h
    | some gs1 =>
      rw [hfc] at h
      by_cases hr : m0 = r
      · subst hr
        exact bindList_roots_keep rels fuel m0 hz ms gs1 gens' h
          (assignGenRec_root_zero rels m0 hz fuel gens gs1 hfc hdisj)
      · have hmem' : m0 ∈ ms := by
          cases List.mem_cons.mp hmem with
          | inl he => exact absurd he hr
          | inr hm => exact hm
        refine ih gs1 gens' h hmem' ?_
        rw [assignGenRec_lookup_preserve rels m0 hz fuel r 0 gens gs1 hr hfc]
        exact hdisj

theorem mem_rootsOf (members : List Nat) (rels : List RelRow) (m : Nat)
    (hm : m ∈ members) (hp : m ∉ parentsOf rels) : m ∈ rootsOf members rels := by
  rw [rootsOf, List.mem_filter]
  refine ⟨hm, ?_⟩
  simp [hp]

/-- C1 (amended): every member that is never the target of a parent edge —
in particular every member disconnected from all parent edges, and every
member when there are no edges at all — receives generation `0`.  The
mapping need not cover every member: a member reachable only through a
parent-edge cycle, never from any root, receives no generation at all. -/
theorem root_members_generation_zero (members : List Nat) (rels : List RelRow)
    (m : Nat) (hm : m ∈ members) (hp : m ∉ parentsOf rels) :
    ∃ gens, assignGenerations members rels = some gens ∧
      lookupGen gens m = some 0 := by
  obtain ⟨gens, hg⟩ := Option.isSome_iff_exists.mp (assignGenerations_isSome members rels)
  refine ⟨gens, hg, ?_⟩
  rw [assignGenerations] at hg
  exact bindList_roots_zero rels (startFuel rels) m hp (rootsOf members rels) [] gens
    hg (mem_rootsOf members rels m hm hp) (Or.inl rfl)

/-- Witness for `root_members_generation_zero`: with members `{7, 8}` and the
single parent edge `7 → 8`, member `7` is never a parent-edge target, so it
is a root and gets generation `0`. -/
theorem root_members_generation_zero_witness :
    ∃ gens, assignGenerations [7, 8] [⟨1, 7, 8, "parent"⟩] = some gens ∧
      lookupGen gens 7 = some 0 :=
  root_members_generation_zero [7, 8] [⟨1, 7, 8, "parent"⟩] 7 (by decide) (by decide)

/-! ### Non-parent labels never influence the assignment (C6) -/

theorem bindList_congr (f g : Nat → Gens → Option Gens)
    (h : ∀ c gs, f c gs = g c gs) :
    ∀ (cs : List Nat) (gens : Gens), bindList f cs gens = bindList g cs gens := by
  intro cs
  induction cs with
  | nil => intro gens; rfl
  | cons c cs ih =>
    intro gens
    rw [bindList_cons, bindList_cons, h c gens]
    cases g c gens with
    | none => rfl
    | some gs1 => exact ih gs1

theorem assignGenRec_congr (rels1 rels2 : List RelRow)
    (h : ∀ x, childrenOf rels1 x = childrenOf rels2 x) :
    ∀ (fuel m g : Nat) (gens : Gens),
      assignGenRec rels1 fuel m g gens = assignGenRec rels2 fuel m g gens := by
  intro fuel
  induction fuel with
  | zero => intro m g gens; rfl
  | succ fuel ih =>
    intro m g gens
    rw [assignGenRec_succ, assignGenRec_succ, assignGenList_eq, assignGenList_eq, h m]
    have hb : bindList (fun c gs => assignGenRec rels1 fuel c (g + 1) gs)
        (childrenOf rels2 m) (insertGen gens m g) =
      bindList (fun c gs => assignGenRec rels2 fuel c (g + 1) gs)
        (childrenOf rels2 m) (insertGen gens m g) :=
      bindList_congr _ _ (fun c gs => ih c (g + 1) gs) _ _
    rw [hb]

theorem parentRels_idem (rels : List RelRow) :
    parentRels (parentRels rels) = parentRels rels := by
  rw [parentRels, parentRels, List.filter_filter]
  exact List.filter_congr (fun r _ => by cases isParentType r.relType <;> rfl)

theorem childrenOf_parentRels (rels : List RelRow) :
    ∀ m, childrenOf (parentRels rels) m = childrenOf rels m := by
  intro m
  rw [childrenOf, childrenOf, parentRels, List.filter_filter]
  refine congrArg (List.map _) (List.filter_congr (fun r _ => ?_))
  cases r.memberId == m <;> cases isParentType r.relType <;> rfl

theorem parentsOf_parentRels (rels : List RelRow) :
    parentsOf (parentRels rels) = parentsOf rels := by
  rw [parentsOf, parentsOf, parentRels_idem]

theorem rootsOf_parentRels (members : List Nat) (rels : List RelRow) :
    rootsOf members (parentRels rels) = rootsOf members rels := by
  rw [rootsOf, rootsOf, parentsOf_parentRels]

theorem startFuel_parentRels (rels : List RelRow) :
    startFuel (parentRels rels) = startFuel rels := by
  rw [startFuel, startFuel, parentRels_idem]

/-- C6: an edge is treated as a parent edge exactly when its type label,
lower-cased, is `parent`, `father` or `mother`; edges with any other label
influence neither root identification nor any assigned generation (restricting
the edge list to its parent-labelled rows leaves the whole generation
assignment unchanged), and cause no error. -/
theorem parent_edge_classification :
    (∀ t : String, isParentType t = true ↔
      (lowerStr t = "parent" ∨ lowerStr t = "father" ∨ lowerStr t = "mother")) ∧
    (∀ (members : List Nat) (rels : List RelRow),
      assignGenerations members (parentRels rels) =
        assignGenerations members rels) := by
  constructor
  · intro t
    simp [isParentType, or_assoc]
  · intro members rels
    rw [assignGenerations, assignGenerations, rootsOf_parentRels,
      startFuel_parentRels]
    exact bindList_congr _ _
      (fun c gs => assignGenRec_congr (parentRels rels) rels
        (childrenOf_parentRels rels) (startFuel rels) c 0 gs) _ _
